import Mathlib

/-!
Verification of the grimp import-graph core (Rust sources under src/rust/src/).

Shallow embedding conventions:
* Rust `String`/`&str` values are embedded as `Str := List Char`; a Lean string
  literal `s` is injected with `strL s := s.toList`.
* `str::split('.')` is embedded as `splitOnChar '.'`, `Vec::join(".")` as
  `joinSep '.'`, `str::starts_with(t)` as `List.isPrefixOf t`.
* Rust `HashMap`s are embedded as association lists (iteration order is the list
  order; the maps built by this code have distinct keys), `HashSet`s as lists
  used only through membership or through order-insensitive folds.
* Fallible Rust code returns `Except`; a Rust panic (out-of-bounds index,
  `unwrap` on an error) is the `Res.panicked` value of the `Res` wrapper.
-/

/-- Characters of a Rust string. -/
abbrev Str := List Char

/-- Injection of a Lean string literal into the `Str` embedding. -/
def strL (s : String) : Str := s.toList

/-- Helper for `splitOnChar`: returns the first separated component and the
remaining components of the input. -/
def splitOnCharAux (sep : Char) : Str → Str × List Str
  | [] => ([], [])
  | c :: cs =>
    let r := splitOnCharAux sep cs
    if c = sep then ([], r.1 :: r.2) else (c :: r.1, r.2)

/-- Embedding of Rust `str::split(sep)` collected into a vector: the list of
components of `s` separated by `sep`.  Always nonempty. -/
def splitOnChar (sep : Char) (s : Str) : List Str :=
  (splitOnCharAux sep s).1 :: (splitOnCharAux sep s).2

/-- Embedding of Rust `Vec<&str>::join(sep)`. -/
def joinSep (sep : Char) : List Str → Str
  | [] => []
  | [p] => p
  | p :: q :: rest => p ++ sep :: joinSep sep (q :: rest)

theorem splitOnChar_ne_nil (sep : Char) (s : Str) : splitOnChar sep s ≠ [] := by
  simp [splitOnChar]

theorem joinSep_cons_cons (sep : Char) (p q : Str) (rest : List Str) :
    joinSep sep (p :: q :: rest) = p ++ sep :: joinSep sep (q :: rest) := rfl

theorem splitOnChar_cons_of_eq (sep : Char) (cs : Str) :
    splitOnChar sep (sep :: cs) = [] :: splitOnChar sep cs := by
  simp [splitOnChar, splitOnCharAux]

theorem splitOnChar_cons_of_ne (sep c : Char) (cs : Str) (h : c ≠ sep) :
    splitOnChar sep (c :: cs) =
      (c :: (splitOnCharAux sep cs).1) :: (splitOnCharAux sep cs).2 := by
  simp [splitOnChar, splitOnCharAux, h]

theorem joinSep_splitOnChar (sep : Char) (s : Str) :
    joinSep sep (splitOnChar sep s) = s := by
  induction s with
  | nil => rfl
  | cons c cs ih =>
    have hs : splitOnChar sep cs =
        (splitOnCharAux sep cs).1 :: (splitOnCharAux sep cs).2 := rfl
    by_cases h : c = sep
    · subst h
      rw [splitOnChar_cons_of_eq, hs, joinSep_cons_cons, ← hs, ih]
      rfl
    · rw [splitOnChar_cons_of_ne sep c cs h]
      cases h2 : (splitOnCharAux sep cs).2 with
      | nil =>
        have hA : (splitOnCharAux sep cs).1 = cs := by
          have hh := ih
          rw [hs, h2] at hh
          simpa [joinSep] using hh
        rw [hA]
        rfl
      | cons x xs =>
        have hrest : joinSep sep ((splitOnCharAux sep cs).1 :: x :: xs) = cs := by
          have hh := ih
          rw [hs, h2] at hh
          exact hh
        rw [joinSep_cons_cons] at hrest ⊢
        rw [List.cons_append, hrest]

theorem splitOnCharAux_append_sep (sep : Char) (x y : Str) :
    splitOnCharAux sep (x ++ sep :: y) =
      ((splitOnCharAux sep x).1,
        (splitOnCharAux sep x).2 ++ splitOnChar sep y) := by
  induction x with
  | nil => simp [splitOnCharAux, splitOnChar]
  | cons c cs ih =>
    by_cases h : c = sep <;> simp [splitOnCharAux, ih, h]

theorem splitOnChar_append_sep (sep : Char) (x y : Str) :
    splitOnChar sep (x ++ sep :: y) = splitOnChar sep x ++ splitOnChar sep y := by
  simp [splitOnChar, splitOnCharAux_append_sep]

theorem not_mem_of_mem_splitOnChar (sep : Char) (s : Str) :
    ∀ p ∈ splitOnChar sep s, sep ∉ p := by
  induction s with
  | nil => intro p hp; simp [splitOnChar, splitOnCharAux] at hp; simp [hp]
  | cons c cs ih =>
    intro p hp
    by_cases h : c = sep
    · subst h
      rw [splitOnChar_cons_of_eq] at hp
      rcases List.mem_cons.mp hp with hp1 | hp1
      · simp [hp1]
      · exact ih p hp1
    · rw [splitOnChar_cons_of_ne sep c cs h] at hp
      rcases List.mem_cons.mp hp with hp1 | hp1
      · subst hp1
        intro hmem
        rcases List.mem_cons.mp hmem with hc | hc
        · exact h hc.symm
        · exact ih _ (by simp [splitOnChar]) hc
      · exact ih p (by simp [splitOnChar, hp1])

theorem splitOnChar_of_not_mem (sep : Char) (s : Str) (h : sep ∉ s) :
    splitOnChar sep s = [s] := by
  induction s with
  | nil => rfl
  | cons c cs ih =>
    have hc : c ≠ sep := fun hcs => h (hcs ▸ List.mem_cons_self c cs)
    have hcs : sep ∉ cs := fun hm => h (List.mem_cons_of_mem _ hm)
    have hrec := ih hcs
    simp only [splitOnChar] at hrec
    obtain ⟨h1, h2⟩ := List.cons.inj hrec
    rw [splitOnChar_cons_of_ne sep c cs hc, h1, h2]

theorem joinSep_append (sep : Char) (l₁ l₂ : List Str) (h₁ : l₁ ≠ []) (h₂ : l₂ ≠ []) :
    joinSep sep (l₁ ++ l₂) = joinSep sep l₁ ++ sep :: joinSep sep l₂ := by
  induction l₁ with
  | nil => exact absurd rfl h₁
  | cons a as ih =>
    cases as with
    | nil =>
      cases l₂ with
      | nil => exact absurd rfl h₂
      | cons b bs => simp [joinSep]
    | cons a2 as2 =>
      have hstep := ih (by simp)
      calc joinSep sep ((a :: a2 :: as2) ++ l₂)
          = a ++ sep :: joinSep sep ((a2 :: as2) ++ l₂) := by
            simp [joinSep_cons_cons]
        _ = a ++ sep :: (joinSep sep (a2 :: as2) ++ sep :: joinSep sep l₂) := by
            rw [hstep]
        _ = joinSep sep (a :: a2 :: as2) ++ sep :: joinSep sep l₂ := by
            simp [joinSep_cons_cons]

theorem splitOnChar_joinSep (sep : Char) (l : List Str) (hne : l ≠ [])
    (hfree : ∀ p ∈ l, sep ∉ p) :
    splitOnChar sep (joinSep sep l) = l := by
  induction l with
  | nil => exact absurd rfl hne
  | cons a as ih =>
    cases as with
    | nil => simpa [joinSep] using splitOnChar_of_not_mem sep a (hfree a (by simp))
    | cons b bs =>
      have hstep : joinSep sep (a :: b :: bs) = a ++ sep :: joinSep sep (b :: bs) := rfl
      rw [hstep, splitOnChar_append_sep]
      have ha : splitOnChar sep a = [a] :=
        splitOnChar_of_not_mem sep a (hfree a (by simp))
      have hrest : splitOnChar sep (joinSep sep (b :: bs)) = b :: bs :=
        ih (by simp) (fun p hp => hfree p (List.mem_cons_of_mem _ hp))
      rw [ha, hrest]
      rfl

theorem isPrefixOf_iff_exists {α : Type} [BEq α] [LawfulBEq α] (a b : List α) :
    a.isPrefixOf b = true ↔ ∃ t, b = a ++ t := by
  induction a generalizing b with
  | nil => simp [List.isPrefixOf]
  | cons x xs ih =>
    cases b with
    | nil =>
      simp only [List.isPrefixOf]
      constructor
      · intro h; cases h
      · rintro ⟨t, ht⟩; cases ht
    | cons y ys =>
      simp only [List.isPrefixOf, Bool.and_eq_true, beq_iff_eq, ih, List.cons_append]
      constructor
      · rintro ⟨hxy, t, ht⟩
        exact ⟨t, by rw [hxy, ht]⟩
      · rintro ⟨t, ht⟩
        obtain ⟨h1, h2⟩ := List.cons.inj ht
        exact ⟨h1.symm, t, h2⟩

theorem splitOnChar_prefix_iff (sep : Char) (a b : Str) :
    (splitOnChar sep a).isPrefixOf (splitOnChar sep b) = true ↔
      a = b ∨ (a ++ [sep]).isPrefixOf b = true := by
  rw [isPrefixOf_iff_exists, isPrefixOf_iff_exists]
  constructor
  · rintro ⟨t, ht⟩
    cases t with
    | nil =>
      left
      have : joinSep sep (splitOnChar sep a) = joinSep sep (splitOnChar sep b) := by
        rw [ht, List.append_nil]
      rwa [joinSep_splitOnChar, joinSep_splitOnChar] at this
    | cons x xs =>
      right
      refine ⟨joinSep sep (x :: xs), ?_⟩
      have hb : joinSep sep (splitOnChar sep b) = b := joinSep_splitOnChar sep b
      rw [ht] at hb
      rw [joinSep_append sep _ _ (splitOnChar_ne_nil sep a) (by simp)] at hb
      rw [joinSep_splitOnChar] at hb
      rw [← hb, List.append_assoc]
      rfl
  · rintro (rfl | ⟨t, ht⟩)
    · exact ⟨[], by simp⟩
    · refine ⟨splitOnChar sep t, ?_⟩
      rw [List.append_assoc] at ht
      simp only [List.singleton_append] at ht
      rw [ht, splitOnChar_append_sep]

/-- Length of the common leading run of equal elements of two lists (the number
of loop iterations of the common-prefix `while` in `_distill_external_module`). -/
def commonPrefixLen : List Str → List Str → Nat
  | a :: as, b :: bs => if a = b then commonPrefixLen as bs + 1 else 0
  | _, _ => 0

theorem commonPrefixLen_le_left (a b : List Str) : commonPrefixLen a b ≤ a.length := by
  induction a generalizing b with
  | nil => cases b <;> simp [commonPrefixLen]
  | cons x xs ih =>
    cases b with
    | nil => simp [commonPrefixLen]
    | cons y ys =>
      by_cases h : x = y <;> simp [commonPrefixLen, h]
      exact ih ys

theorem prefix_of_commonPrefixLen_eq_length (a b : List Str)
    (h : commonPrefixLen a b = a.length) : ∃ t, b = a ++ t := by
  induction a generalizing b with
  | nil => exact ⟨b, rfl⟩
  | cons x xs ih =>
    cases b with
    | nil => simp [commonPrefixLen] at h
    | cons y ys =>
      by_cases hxy : x = y
      · subst hxy
        have h3 : commonPrefixLen xs ys = xs.length := by
          simp [commonPrefixLen] at h
          omega
        obtain ⟨t, ht⟩ := ih ys h3
        exact ⟨t, by rw [ht]; rfl⟩
      · simp [commonPrefixLen, hxy] at h

/-- `module_finding::Module` (a dotted module name; named `PyModule` here because
`Module` is taken by Mathlib). -/
structure PyModule where
  name : Str
deriving DecidableEq, Repr

/-- `module_finding::ModuleFile` (a module together with its file name),
as listed by a `FoundPackage`. -/
structure ModuleFile where
  module : PyModule
  filename : Str
deriving DecidableEq, Repr

/-- `module_finding::FoundPackage`: an internal package rooted at a dotted name,
with its directory and its module files. -/
structure FoundPackage where
  name : Str
  directory : Str
  module_files : List ModuleFile
deriving DecidableEq, Repr

/-- `import_scanning::DirectImport` (importer, imported, line number, verbatim
line contents).  `line_number: usize` is embedded as `Nat`. -/
structure DirectImport where
  importer : Str
  imported : Str
  line_number : Nat
  line_contents : Str
deriving DecidableEq, Repr

/-- Outcome of a Rust computation that can panic: `Res.panicked` embeds a Rust
panic (out-of-bounds indexing, `unwrap` on an error value). -/
inductive Res (α : Type) : Type
  | panicked : Res α
  | value : α → Res α
deriving DecidableEq, Repr

/-- `import_scanning::count_leading_dots`. -/
def count_leading_dots (s : Str) : Nat :=
  (s.takeWhile (fun c => c = '.')).length

/-- `import_scanning::module_is_descendant`:
`module_name.starts_with(potential_ancestor + ".")`. -/
def module_is_descendant (module_name potential_ancestor : Str) : Bool :=
  (potential_ancestor ++ ['.']).isPrefixOf module_name

/-- The `while external_path_components[0] == internal_path_components[0]` loop
of `_distill_external_module`, followed by the
`external_namespace_components.push(external_path_components[0])` after it.
The first argument is `external_path_components`, the second
`internal_path_components`, the third the accumulated
`external_namespace_components`.  Rust evaluates `external_path_components[0]`
first and `internal_path_components[0]` second in the loop condition, so an
empty vector on either side is an out-of-bounds panic (`none`). -/
def commonLoop : List Str → List Str → List Str → Option (List Str)
  | [], _, _ => none
  | _ :: _, [], _ => none
  | e :: es, i :: is2, acc =>
    if e = i then commonLoop es is2 (acc ++ [e]) else some (acc ++ [e])

/-- The candidate-collection loop of `_distill_external_module`: for each found
package whose name starts with `module_root + "."`, run the common-prefix loop
on the split components and record the joined candidate portion.
The Rust code iterates the packages sorted by name in reverse and inserts the
candidates into a `HashSet`; both only affect iteration order, which is
irrelevant below because candidates of equal depth are equal (each candidate is
a prefix of `module_name`'s components), so the embedding keeps the given list
order and keeps duplicates. -/
def distillCollect (module_name module_root : Str) :
    List FoundPackage → List Str → Res (List Str)
  | [], acc => .value acc
  | p :: ps, acc =>
    if module_is_descendant p.name module_root then
      match commonLoop (splitOnChar '.' module_name) (splitOnChar '.' p.name) [] with
      | none => .panicked
      | some comps =>
          distillCollect module_name module_root ps (acc ++ [joinSep '.' comps])
    else distillCollect module_name module_root ps acc

/-- `candidate_portions.iter().sorted_by_key(|p| depth).next_back()`: the last
element of maximal component depth under a stable ascending sort, i.e. the last
maximum of the iteration order.  Embedded as a fold that replaces the current
best on ties. -/
def deepestPortion (first : Str) (rest : List Str) : Str :=
  rest.foldl
    (fun best x =>
      if (splitOnChar '.' best).length ≤ (splitOnChar '.' x).length then x else best)
    first

/-- `import_scanning::_distill_external_module`.  Returns
`Res.value none` for "no external import", `Res.value (some m)` for a distilled
module name, and `Res.panicked` when the common-prefix loop indexes an empty
vector (which the Rust code does with `Vec` indexing and `remove(0)`). -/
def _distill_external_module (module_name : Str) (found_packages : List FoundPackage) :
    Res (Option Str) :=
  let module_root := (splitOnChar '.' module_name).headD []
  if found_packages.any (fun p => module_is_descendant p.name module_name) then
    .value none
  else
    match distillCollect module_name module_root found_packages [] with
    | .panicked => .panicked
    | .value [] => .value (some module_root)
    | .value (c :: cs) => .value (some (deepestPortion c cs))

/-- Claim C2's three rules exactly as the claim states them (rule 2 selects the
found packages whose FIRST DOTTED COMPONENT equals X's first component). -/
def distillSpecStated (X : Str) (P : List FoundPackage) : Option Str :=
  if P.any (fun p => module_is_descendant p.name X) then none
  else
    let comps := splitOnChar '.' X
    let sharing := P.filter
      (fun p => (splitOnChar '.' p.name).headD [] = comps.headD [])
    if sharing.isEmpty then some (comps.headD [])
    else
      let d := (sharing.map
        (fun p => commonPrefixLen comps (splitOnChar '.' p.name))).foldl max 0
      some (joinSep '.' (comps.take (d + 1)))

/-- The amended three rules: rule 2 selects the found packages whose name is a
strict descendant of X's first component (`starts_with(first + ".")`), which is
the condition the code actually tests. -/
def distillSpecAmended (X : Str) (P : List FoundPackage) : Option Str :=
  if P.any (fun p => module_is_descendant p.name X) then none
  else
    let comps := splitOnChar '.' X
    let sharing := P.filter
      (fun p => module_is_descendant p.name (comps.headD []))
    if sharing.isEmpty then some (comps.headD [])
    else
      let d := (sharing.map
        (fun p => commonPrefixLen comps (splitOnChar '.' p.name))).foldl max 0
      some (joinSep '.' (comps.take (d + 1)))

theorem commonLoop_eq (e : List Str) :
    ∀ (i acc : List Str),
      (¬ ∃ t, i = e ++ t) → (¬ ∃ t, e = i ++ t) →
      commonLoop e i acc = some (acc ++ e.take (commonPrefixLen e i + 1)) := by
  induction e with
  | nil => intro i acc h1 _; exact absurd ⟨i, rfl⟩ h1
  | cons x xs ih =>
    intro i acc h1 h2
    cases i with
    | nil => exact absurd ⟨x :: xs, rfl⟩ h2
    | cons y ys =>
      by_cases hxy : x = y
      · subst hxy
        have h1a : ¬ ∃ t, ys = xs ++ t := by
          rintro ⟨t, ht⟩
          exact h1 ⟨t, by rw [ht, List.cons_append]⟩
        have h2a : ¬ ∃ t, xs = ys ++ t := by
          rintro ⟨t, ht⟩
          exact h2 ⟨t, by rw [ht, List.cons_append]⟩
        have hrec := ih ys (acc ++ [x]) h1a h2a
        simp only [commonLoop, if_pos rfl] at *
        rw [hrec]
        simp [commonPrefixLen, List.append_assoc]
      · simp [commonLoop, commonPrefixLen, hxy]

theorem distillCollect_eq (X root : Str) :
    ∀ (P : List FoundPackage) (acc : List Str),
      (∀ p ∈ P, module_is_descendant p.name root = true →
        (¬ ∃ t, splitOnChar '.' p.name = splitOnChar '.' X ++ t) ∧
        (¬ ∃ t, splitOnChar '.' X = splitOnChar '.' p.name ++ t)) →
      distillCollect X root P acc =
        .value (acc ++
          (P.filter (fun p => module_is_descendant p.name root)).map
            (fun p => joinSep '.'
              ((splitOnChar '.' X).take
                (commonPrefixLen (splitOnChar '.' X) (splitOnChar '.' p.name) + 1)))) := by
  intro P
  induction P with
  | nil => intro acc _; simp [distillCollect]
  | cons p ps ih =>
    intro acc h
    by_cases hg : module_is_descendant p.name root = true
    · obtain ⟨hp1, hp2⟩ := h p (by simp) hg
      have hloop := commonLoop_eq (splitOnChar '.' X) (splitOnChar '.' p.name) [] hp1 hp2
      have hstep : distillCollect X root (p :: ps) acc =
          distillCollect X root ps (acc ++ [joinSep '.'
            ((splitOnChar '.' X).take
              (commonPrefixLen (splitOnChar '.' X) (splitOnChar '.' p.name) + 1))]) := by
        conv_lhs => simp only [distillCollect]
        rw [if_pos hg, hloop]
        simp only [List.nil_append]
      rw [hstep, ih _ (fun q hq hqg => h q (by simp [hq]) hqg)]
      simp [hg, List.append_assoc]
    · have hstep : distillCollect X root (p :: ps) acc =
          distillCollect X root ps acc := by
        conv_lhs => simp only [distillCollect]
        rw [if_neg hg]
      rw [hstep, ih acc (fun q hq hqg => h q (by simp [hq]) hqg)]
      simp [hg]

theorem deepestPortion_mem (c : Str) (cs : List Str) :
    deepestPortion c cs ∈ c :: cs := by
  unfold deepestPortion
  induction cs generalizing c with
  | nil => simp
  | cons b bs ih =>
    simp only [List.foldl_cons]
    by_cases h : (splitOnChar '.' c).length ≤ (splitOnChar '.' b).length
    · rw [if_pos h]
      rcases List.mem_cons.mp (ih b) with h1 | h1
      · simp [h1]
      · simp [List.mem_cons_of_mem, h1]
    · rw [if_neg h]
      rcases List.mem_cons.mp (ih c) with h1 | h1
      · simp [h1]
      · simp [List.mem_cons_of_mem, h1]

theorem deepestPortion_max (c : Str) (cs : List Str) :
    ∀ x ∈ c :: cs,
      (splitOnChar '.' x).length ≤ (splitOnChar '.' (deepestPortion c cs)).length := by
  unfold deepestPortion
  induction cs generalizing c with
  | nil => intro x hx; simp at hx; simp [hx]
  | cons b bs ih =>
    intro x hx
    simp only [List.foldl_cons]
    by_cases h : (splitOnChar '.' c).length ≤ (splitOnChar '.' b).length
    · rw [if_pos h]
      rcases List.mem_cons.mp hx with h1 | h1
      · exact h1 ▸ le_trans h (ih b b (by simp))
      · rcases List.mem_cons.mp h1 with h2 | h2
        · exact h2 ▸ ih b b (by simp)
        · exact ih b x (by simp [h2])
    · rw [if_neg h]
      rcases List.mem_cons.mp hx with h1 | h1
      · exact h1 ▸ ih c c (by simp)
      · rcases List.mem_cons.mp h1 with h2 | h2
        · exact h2 ▸ le_trans (le_of_not_le h) (ih c c (by simp))
        · exact ih c x (by simp [h2])

theorem foldl_max_init_le (l : List Nat) (a : Nat) : a ≤ l.foldl max a := by
  induction l generalizing a with
  | nil => simp
  | cons b bs ih => exact le_trans (le_max_left a b) (ih (max a b))

theorem le_foldl_max (l : List Nat) (a : Nat) : ∀ x ∈ l, x ≤ l.foldl max a := by
  induction l generalizing a with
  | nil => simp
  | cons b bs ih =>
    intro x hx
    rcases List.mem_cons.mp hx with h1 | h1
    · subst h1
      exact le_trans (le_max_right a x) (foldl_max_init_le bs (max a x))
    · exact ih (max a b) x h1

theorem foldl_max_mem (l : List Nat) (a : Nat) :
    l.foldl max a = a ∨ l.foldl max a ∈ l := by
  induction l generalizing a with
  | nil => simp
  | cons b bs ih =>
    simp only [List.foldl_cons]
    rcases ih (max a b) with h | h
    · rcases Nat.le_total a b with hab | hab
      · right; rw [h, max_eq_right hab]; simp
      · left; rw [h, max_eq_left hab]
    · right; simp [h]

theorem distill_eq_amended (X : Str) (P : List FoundPackage)
    (hpre : ∀ p ∈ P, p.name ≠ X ∧ module_is_descendant X p.name = false) :
    _distill_external_module X P = Res.value (distillSpecAmended X P) := by
  by_cases hany : P.any (fun p => module_is_descendant p.name X) = true
  · unfold _distill_external_module distillSpecAmended
    rw [if_pos hany, if_pos hany]
  · have hnone : ∀ p ∈ P, module_is_descendant p.name X = false := by
      intro p hp
      by_contra hcon
      exact hany (List.any_eq_true.mpr ⟨p, hp, by simpa using hcon⟩)
    have hboth : ∀ p ∈ P,
        (¬ ∃ t, splitOnChar '.' p.name = splitOnChar '.' X ++ t) ∧
        (¬ ∃ t, splitOnChar '.' X = splitOnChar '.' p.name ++ t) := by
      intro p hp
      constructor
      · rintro ⟨t, ht⟩
        have hpf : (splitOnChar '.' X).isPrefixOf (splitOnChar '.' p.name) = true :=
          (isPrefixOf_iff_exists _ _).mpr ⟨t, ht⟩
        rcases (splitOnChar_prefix_iff '.' X p.name).mp hpf with heq | hdesc
        · exact (hpre p hp).1 heq.symm
        · have hf := hnone p hp
          unfold module_is_descendant at hf
          rw [hf] at hdesc
          exact Bool.noConfusion hdesc
      · rintro ⟨t, ht⟩
        have hpf : (splitOnChar '.' p.name).isPrefixOf (splitOnChar '.' X) = true :=
          (isPrefixOf_iff_exists _ _).mpr ⟨t, ht⟩
        rcases (splitOnChar_prefix_iff '.' p.name X).mp hpf with heq | hdesc
        · exact (hpre p hp).1 heq
        · have hf := (hpre p hp).2
          unfold module_is_descendant at hf
          rw [hf] at hdesc
          exact Bool.noConfusion hdesc
    have hklt : ∀ p ∈ P,
        commonPrefixLen (splitOnChar '.' X) (splitOnChar '.' p.name) <
          (splitOnChar '.' X).length := by
      intro p hp
      rcases Nat.lt_or_ge (commonPrefixLen (splitOnChar '.' X) (splitOnChar '.' p.name))
        ((splitOnChar '.' X).length) with h | h
      · exact h
      · have heq : commonPrefixLen (splitOnChar '.' X) (splitOnChar '.' p.name) =
            (splitOnChar '.' X).length :=
          le_antisymm (commonPrefixLen_le_left _ _) h
        obtain ⟨t, ht⟩ := prefix_of_commonPrefixLen_eq_length _ _ heq
        exact absurd ⟨t, ht⟩ (hboth p hp).1
    have hdepth : ∀ p ∈ P,
        splitOnChar '.' (joinSep '.'
          ((splitOnChar '.' X).take
            (commonPrefixLen (splitOnChar '.' X) (splitOnChar '.' p.name) + 1))) =
        (splitOnChar '.' X).take
          (commonPrefixLen (splitOnChar '.' X) (splitOnChar '.' p.name) + 1) := by
      intro p hp
      apply splitOnChar_joinSep
      · have hlen : ((splitOnChar '.' X).take
            (commonPrefixLen (splitOnChar '.' X) (splitOnChar '.' p.name) + 1)).length =
            commonPrefixLen (splitOnChar '.' X) (splitOnChar '.' p.name) + 1 := by
          rw [List.length_take]
          exact min_eq_left (hklt p hp)
        intro hnil
        rw [hnil] at hlen
        simp at hlen
      · intro q hq
        exact not_mem_of_mem_splitOnChar '.' X q (List.take_subset _ _ hq)
    have hanyf : P.any (fun p => module_is_descendant p.name X) = false := by
      simpa using hany
    have hcollect := distillCollect_eq X ((splitOnChar '.' X).headD []) P []
      (fun p hp _ => hboth p hp)
    simp only [_distill_external_module, distillSpecAmended, hanyf, Bool.false_eq_true,
      if_false, hcollect, List.nil_append]
    cases hsh : P.filter
        (fun p => module_is_descendant p.name ((splitOnChar '.' X).headD [])) with
    | nil => simp [hsh]
    | cons q qs =>
      simp only [List.map_cons, List.isEmpty_cons, Bool.false_eq_true, if_false]
      have hsub : ∀ p ∈ q :: qs, p ∈ P := by
        intro p hp
        have : p ∈ P.filter
            (fun p => module_is_descendant p.name ((splitOnChar '.' X).headD [])) := by
          rw [hsh]; exact hp
        exact List.mem_of_mem_filter this
      obtain ⟨r, hrmem, hreq⟩ : ∃ r ∈ q :: qs,
          deepestPortion
            (joinSep '.' ((splitOnChar '.' X).take
              (commonPrefixLen (splitOnChar '.' X) (splitOnChar '.' q.name) + 1)))
            (qs.map (fun p => joinSep '.' ((splitOnChar '.' X).take
              (commonPrefixLen (splitOnChar '.' X) (splitOnChar '.' p.name) + 1)))) =
          joinSep '.' ((splitOnChar '.' X).take
            (commonPrefixLen (splitOnChar '.' X) (splitOnChar '.' r.name) + 1)) := by
        have hmem := deepestPortion_mem
          (joinSep '.' ((splitOnChar '.' X).take
            (commonPrefixLen (splitOnChar '.' X) (splitOnChar '.' q.name) + 1)))
          (qs.map (fun p => joinSep '.' ((splitOnChar '.' X).take
            (commonPrefixLen (splitOnChar '.' X) (splitOnChar '.' p.name) + 1))))
        rw [show (joinSep '.' ((splitOnChar '.' X).take
              (commonPrefixLen (splitOnChar '.' X) (splitOnChar '.' q.name) + 1))) ::
            (qs.map (fun p => joinSep '.' ((splitOnChar '.' X).take
              (commonPrefixLen (splitOnChar '.' X) (splitOnChar '.' p.name) + 1)))) =
            (q :: qs).map (fun p => joinSep '.' ((splitOnChar '.' X).take
              (commonPrefixLen (splitOnChar '.' X) (splitOnChar '.' p.name) + 1)))
          from rfl] at hmem
        obtain ⟨r, hr, hfr⟩ := List.mem_map.mp hmem
        exact ⟨r, hr, hfr.symm⟩
      rw [hreq]
      have hkmax : ∀ p ∈ q :: qs,
          commonPrefixLen (splitOnChar '.' X) (splitOnChar '.' p.name) ≤
          commonPrefixLen (splitOnChar '.' X) (splitOnChar '.' r.name) := by
        intro p hp
        have hmax := deepestPortion_max
          (joinSep '.' ((splitOnChar '.' X).take
            (commonPrefixLen (splitOnChar '.' X) (splitOnChar '.' q.name) + 1)))
          (qs.map (fun p => joinSep '.' ((splitOnChar '.' X).take
            (commonPrefixLen (splitOnChar '.' X) (splitOnChar '.' p.name) + 1))))
          (joinSep '.' ((splitOnChar '.' X).take
            (commonPrefixLen (splitOnChar '.' X) (splitOnChar '.' p.name) + 1)))
          (by
            rw [show (joinSep '.' ((splitOnChar '.' X).take
                  (commonPrefixLen (splitOnChar '.' X) (splitOnChar '.' q.name) + 1))) ::
                (qs.map (fun p => joinSep '.' ((splitOnChar '.' X).take
                  (commonPrefixLen (splitOnChar '.' X) (splitOnChar '.' p.name) + 1)))) =
                (q :: qs).map (fun p => joinSep '.' ((splitOnChar '.' X).take
                  (commonPrefixLen (splitOnChar '.' X) (splitOnChar '.' p.name) + 1)))
              from rfl]
            exact List.mem_map.mpr ⟨p, hp, rfl⟩)
        rw [hreq] at hmax
        rw [hdepth p (hsub p hp), hdepth r (hsub r hrmem)] at hmax
        have hlp : ((splitOnChar '.' X).take
            (commonPrefixLen (splitOnChar '.' X) (splitOnChar '.' p.name) + 1)).length =
            commonPrefixLen (splitOnChar '.' X) (splitOnChar '.' p.name) + 1 := by
          rw [List.length_take]
          exact min_eq_left (hklt p (hsub p hp))
        have hlr : ((splitOnChar '.' X).take
            (commonPrefixLen (splitOnChar '.' X) (splitOnChar '.' r.name) + 1)).length =
            commonPrefixLen (splitOnChar '.' X) (splitOnChar '.' r.name) + 1 := by
          rw [List.length_take]
          exact min_eq_left (hklt r (hsub r hrmem))
        rw [hlp, hlr] at hmax
        omega
      have hd : ((q :: qs).map
          (fun p => commonPrefixLen (splitOnChar '.' X) (splitOnChar '.' p.name))).foldl
            max 0 =
          commonPrefixLen (splitOnChar '.' X) (splitOnChar '.' r.name) := by
        apply le_antisymm
        · rcases foldl_max_mem ((q :: qs).map
              (fun p => commonPrefixLen (splitOnChar '.' X) (splitOnChar '.' p.name))) 0
            with h0 | hm
          · rw [h0]; exact Nat.zero_le _
          · obtain ⟨p, hp, hpk⟩ := List.mem_map.mp hm
            rw [← hpk]
            exact hkmax p hp
        · exact le_foldl_max _ 0 _
            (List.mem_map.mpr ⟨r, hrmem, rfl⟩)
      rw [List.map_cons] at hd
      rw [hd]

/-- Claim C2, as stated, is false: with external name `foo.bar` and a found
package named `foo`, the stated rule 2 ("any package's first dotted component
equals X's first component") applies and yields `foo.bar`, but the code's
condition is `package.name.starts_with(first + ".")`, which the one-component
package `foo` fails, so the code falls through to rule 3 and returns `foo`. -/
theorem c2_counterexample :
    ¬ ∀ (X : Str) (P : List FoundPackage),
        _distill_external_module X P = Res.value (distillSpecStated X P) := by
  intro h
  exact absurd (h (strL "foo.bar") [⟨strL "foo", strL "foo", []⟩]) (by decide)

/-- Claim C2 (amended): for every external dotted name X and found-package set
P such that no package's name is a dotted prefix of X (neither equal to X nor a
strict dotted ancestor of X — without this the common-prefix loop panics),
`_distill_external_module` follows the three rules, with rule 2 selecting the
packages whose name is a strict descendant of X's first dotted component
(`name.starts_with(first + ".")`) rather than packages merely sharing the first
component; the result is the longest common dotted prefix of X with such a
package extended by X's next component (ties among packages collapse because
every candidate is a prefix of X). -/
theorem c2_distillation_follows_amended_rules (X : Str) (P : List FoundPackage)
    (hpre : ∀ p ∈ P, p.name ≠ X ∧ module_is_descendant X p.name = false) :
    _distill_external_module X P = Res.value (distillSpecAmended X P) :=
  distill_eq_amended X P hpre

/-- Witness for the amended claim C2 at the documentation's own example:
internal package `foo.blue.beta`, external name `foo.blue.alpha.one`,
distilled to `foo.blue.alpha`. -/
theorem c2_witness :
    _distill_external_module (strL "foo.blue.alpha.one")
        [⟨strL "foo.blue.beta", strL "foo/blue/beta", []⟩] =
      Res.value (distillSpecAmended (strL "foo.blue.alpha.one")
        [⟨strL "foo.blue.beta", strL "foo/blue/beta", []⟩]) ∧
    distillSpecAmended (strL "foo.blue.alpha.one")
        [⟨strL "foo.blue.beta", strL "foo/blue/beta", []⟩] =
      some (strL "foo.blue.alpha") :=
  ⟨c2_distillation_follows_amended_rules _ _ (by decide), by decide⟩

/-- Claim C9 is contradicted by the code: with found package `foo.bar` and
external name `foo.bar.baz.qux` (which differs from every found package's
name, so the claim's hypothesis holds), the common-prefix loop of
`_distill_external_module` exhausts `internal_path_components` and then
evaluates `internal_path_components[0]`, an out-of-bounds index, so the
function panics instead of returning a value. -/
theorem c9_distill_panics_on_package_prefix :
    strL "foo.bar.baz.qux" ≠ strL "foo.bar" ∧
    _distill_external_module (strL "foo.bar.baz.qux")
        [⟨strL "foo.bar", strL "foo/bar", []⟩] = Res.panicked := by
  constructor
  · decide
  · decide

/-- `import_scanning::_get_absolute_imported_object_name`: resolution of a
(possibly relative) imported object name against the importing module.
`parts[0..n].join(".")` is `joinSep '.' (parts.take n)`; the Rust index
arithmetic `parts.len() - leading_dots_count` requires
`leading_dots_count <= parts.len()` (otherwise the usize subtraction panics),
which the scanner's inputs satisfy; `Nat` subtraction truncates there instead. -/
def _get_absolute_imported_object_name (module : PyModule) (is_package : Bool)
    (imported_object_name : Str) : Str :=
  let leading_dots_count := count_leading_dots imported_object_name
  if leading_dots_count = 0 then imported_object_name
  else
    let parts := splitOnChar '.' module.name
    let imported_object_name_base :=
      if is_package then
        if leading_dots_count = 1 then module.name
        else joinSep '.' (parts.take (parts.length - leading_dots_count + 1))
      else joinSep '.' (parts.take (parts.length - leading_dots_count))
    imported_object_name_base ++ '.' :: imported_object_name.drop leading_dots_count

/-- Claim C4's resolution formula, written from the spec's words (section 4.B,
"Absolute-name resolution"): count leading dots k; if k = 0 the name is
unchanged; otherwise the base is M.name for a package with k = 1,
parts[0..len-k+1] joined for a package with k > 1, and parts[0..len-k] joined
otherwise; the absolute name is base + "." + name[k..]. -/
def resolveSpec (M : PyModule) (is_package : Bool) (name : Str) : Str :=
  let k := count_leading_dots name
  let parts := splitOnChar '.' M.name
  if k = 0 then name
  else if is_package ∧ k = 1 then
    M.name ++ '.' :: name.drop k
  else if is_package then
    joinSep '.' (parts.take (parts.length - k + 1)) ++ '.' :: name.drop k
  else
    joinSep '.' (parts.take (parts.length - k)) ++ '.' :: name.drop k

/-- Claim C4: relative-import resolution computes exactly the spec formula,
for every importing module, package flag and imported name whose leading-dot
count does not exceed the depth of the importing module. -/
theorem c4_resolution_matches_spec (M : PyModule) (is_package : Bool) (name : Str)
    (hk : count_leading_dots name ≤ (splitOnChar '.' M.name).length) :
    _get_absolute_imported_object_name M is_package name =
      resolveSpec M is_package name := by
  unfold _get_absolute_imported_object_name resolveSpec
  by_cases h0 : count_leading_dots name = 0
  · simp [h0]
  · by_cases hp : is_package
    · by_cases h1 : count_leading_dots name = 1
      · simp [h0, h1, hp]
      · simp [h0, h1, hp]
    · simp [h0, hp]

/-- Witness for claim C4: module `pkg.sub` (not a package) importing
`.helper` resolves to `pkg.helper`. -/
theorem c4_witness :
    count_leading_dots (strL ".helper") ≤
      (splitOnChar '.' (PyModule.mk (strL "pkg.sub")).name).length ∧
    _get_absolute_imported_object_name (PyModule.mk (strL "pkg.sub")) false
        (strL ".helper") =
      resolveSpec (PyModule.mk (strL "pkg.sub")) false (strL ".helper") ∧
    resolveSpec (PyModule.mk (strL "pkg.sub")) false (strL ".helper") =
      strL "pkg.helper" :=
  ⟨by decide,
   c4_resolution_matches_spec (PyModule.mk (strL "pkg.sub")) false (strL ".helper")
     (by decide),
   by decide⟩

/-- A JSON document value.  `serde_json::to_string` and `serde_json::from_str`
convert between this value level and the textual document; that conversion is
the serde_json library (not code of this repository) and is a faithful
round-trip, so the cache codec is embedded at the document-value level.
Numbers are embedded as integers (enough to express the documents the codec
accepts and the malformed integer documents it rejects). -/
inductive Json : Type
  | null : Json
  | bool : Bool → Json
  | num : Int → Json
  | str : Str → Json
  | arr : List Json → Json
  | obj : List (Str × Json) → Json

/-- The error type of the caching module (`errors::GrimpError`), restricted to
the variants the embedded code constructs.  `ParseErr` stands for the parser
collaborator's `ParseError(filename, detail)` (spec section 6). -/
inductive GrimpErr : Type
  | CorruptCache : Str → GrimpErr
  | ParseErr : Str → Str → GrimpErr
deriving DecidableEq, Repr

/-- `caching::serialize_imports_by_module`, at the document-value level: each
map entry becomes an object member keyed by the module name whose value is the
array of `(imported, line_number, line_contents)` tuples (serde serializes a
tuple as a JSON array); the importer field is projected away. -/
def serialize_imports_by_module
    (imports_by_module : List (PyModule × List DirectImport)) : Json :=
  .obj (imports_by_module.map (fun e =>
    (e.1.name, .arr (e.2.map (fun i =>
      .arr [.str i.imported, .num (Int.ofNat i.line_number), .str i.line_contents])))))

/-- serde deserialization of one `(String, usize, String)` tuple: an array of
exactly three elements — a string, a non-negative integer (usize), a string. -/
def decodeTriple : Json → Option (Str × Nat × Str)
  | .arr [.str a, .num n, .str c] =>
      if 0 ≤ n then some (a, n.toNat, c) else none
  | _ => none

/-- serde deserialization of the elements of a JSON array as tuples, failing
if any element fails. -/
def decodeTriples : List Json → Option (List (Str × Nat × Str))
  | [] => some []
  | x :: xs =>
    match decodeTriple x, decodeTriples xs with
    | some t, some ts => some (t :: ts)
    | _, _ => none

/-- serde deserialization of a `Vec<(String, usize, String)>`. -/
def decodeImportsList : Json → Option (List (Str × Nat × Str))
  | .arr xs => decodeTriples xs
  | _ => none

/-- serde deserialization of the members of a JSON object as map entries,
failing if any member value fails. -/
def decodeEntries : List (Str × Json) → Option (List (Str × List (Str × Nat × Str)))
  | [] => some []
  | e :: es =>
    match decodeImportsList e.2, decodeEntries es with
    | some l, some ls => some ((e.1, l) :: ls)
    | _, _ => none

/-- serde deserialization of `HashMap<String, Vec<(String, usize, String)>>`:
the document must be an object each of whose member values is an array of
triples.  The objects this codec reads are serialized from `HashMap`s, so
member keys are distinct and the map is embedded as the member list itself. -/
def decodeRawMap : Json → Option (List (Str × List (Str × Nat × Str)))
  | .obj kvs => decodeEntries kvs
  | _ => none

/-- `caching::parse_json_to_map`: deserialize the document (any serde error
becomes `CorruptCache(filename)`) and rebuild `DirectImport`s, setting every
importer field to the outer member key. -/
def parse_json_to_map (json_str : Json) (filename : Str) :
    Except GrimpErr (List (PyModule × List DirectImport)) :=
  match decodeRawMap json_str with
  | none => .error (.CorruptCache filename)
  | some raw_map =>
      .ok (raw_map.map (fun e =>
        (PyModule.mk e.1,
         e.2.map (fun t => DirectImport.mk e.1 t.1 t.2.1 t.2.2))))

/-- A document is well-formed when it deserializes as the expected shape:
an object mapping module names to arrays of [imported, line_number, contents]
triples. -/
def wellFormedDoc (j : Json) : Prop := (decodeRawMap j).isSome = true

theorem decodeTriple_of_serialized (d : DirectImport) :
    decodeTriple (.arr [.str d.imported, .num (Int.ofNat d.line_number),
      .str d.line_contents]) = some (d.imported, d.line_number, d.line_contents) := by
  show (if (0 : Int) ≤ Int.ofNat d.line_number then
      some (d.imported, (Int.ofNat d.line_number).toNat, d.line_contents)
    else none) = some (d.imported, d.line_number, d.line_contents)
  simp [Int.ofNat_nonneg]

theorem decodeImportsList_of_serialized (l : List DirectImport) :
    decodeImportsList (.arr (l.map (fun i =>
      .arr [.str i.imported, .num (Int.ofNat i.line_number), .str i.line_contents]))) =
      some (l.map (fun i => (i.imported, i.line_number, i.line_contents))) := by
  show decodeTriples _ = _
  induction l with
  | nil => rfl
  | cons d ds ih =>
    simp only [List.map_cons, decodeTriples, decodeTriple_of_serialized, ih]

theorem decodeRawMap_of_serialized (I : List (PyModule × List DirectImport)) :
    decodeRawMap (serialize_imports_by_module I) =
      some (I.map (fun e => (e.1.name,
        e.2.map (fun i => (i.imported, i.line_number, i.line_contents))))) := by
  show decodeEntries _ = _
  induction I with
  | nil => rfl
  | cons e es ih =>
    simp only [List.map_cons, decodeEntries, decodeImportsList_of_serialized, ih]

/-- Claim C1: cache round-trip.  For every imports-by-module value in which
every DirectImport keyed by a module carries that module's name as its
importer, reading back the serialized document restores the value exactly
(hence the same set of module keys and, per key, the same set of
DirectImports). -/
theorem c1_cache_round_trip (I : List (PyModule × List DirectImport))
    (hwf : ∀ e ∈ I, ∀ d ∈ e.2, d.importer = e.1.name) (filename : Str) :
    parse_json_to_map (serialize_imports_by_module I) filename = .ok I := by
  unfold parse_json_to_map
  rw [decodeRawMap_of_serialized]
  simp only [Except.ok.injEq]
  have hl : ∀ (l : List DirectImport) (nm : Str), (∀ d ∈ l, d.importer = nm) →
      (l.map (fun i => (i.imported, i.line_number, i.line_contents))).map
        (fun t => DirectImport.mk nm t.1 t.2.1 t.2.2) = l := by
    intro l nm
    induction l with
    | nil => intro _; rfl
    | cons d ds ihd =>
      intro hn
      simp only [List.map_cons, List.cons.injEq]
      refine ⟨?_, ihd (fun x hx => hn x (by simp [hx]))⟩
      have h := hn d (by simp)
      cases d
      simp only at h
      rw [← h]
  induction I with
  | nil => rfl
  | cons e es ih =>
    simp only [List.map_cons, List.cons.injEq]
    refine ⟨?_, ih (fun x hx => hwf x (by simp [hx]))⟩
    exact Prod.ext rfl (hl e.2 e.1.name (fun d hd => hwf e (by simp) d hd))

/-- Witness for claim C1 at a concrete one-module map. -/
theorem c1_witness :
    parse_json_to_map (serialize_imports_by_module
        [(PyModule.mk (strL "pkg"),
          [DirectImport.mk (strL "pkg") (strL "os") 1 (strL "import os")])])
        (strL "cache.json") =
      .ok [(PyModule.mk (strL "pkg"),
        [DirectImport.mk (strL "pkg") (strL "os") 1 (strL "import os")])] :=
  c1_cache_round_trip _ (by decide) _

/-- Claim C6: `parse_json_to_map` fails with `CorruptCache(filename)` exactly
when the document does not deserialize as the expected shape, every error it
returns is `CorruptCache(filename)` (so no partial mapping is produced), and a
well-formed document never fails. -/
theorem c6_corrupt_cache_iff (j : Json) (filename : Str) :
    (parse_json_to_map j filename = .error (.CorruptCache filename) ↔
      ¬ wellFormedDoc j) ∧
    (∀ e, parse_json_to_map j filename = .error e → e = .CorruptCache filename) ∧
    (wellFormedDoc j → ∃ m, parse_json_to_map j filename = .ok m) := by
  unfold parse_json_to_map wellFormedDoc
  cases hd : decodeRawMap j with
  | none => simp
  | some raw => simp

/-- Witness for claim C6: the document `null` is malformed and fails with
`CorruptCache`, at the spec's "non-document byte sequence" scenario. -/
theorem c6_witness :
    parse_json_to_map Json.null (strL "cache.json") =
      .error (.CorruptCache (strL "cache.json")) :=
  (c6_corrupt_cache_iff Json.null (strL "cache.json")).1.mpr
    (by show ¬ (decodeRawMap Json.null).isSome = true
        decide)

/-- Claim C8, as stated, is false: the cache decoder accepts any non-negative
line number, so the document with the single triple ["x", 0, "import x"] under
key "m" is accepted and reconstructs a DirectImport with line_number 0 < 1. -/
theorem c8_counterexample :
    ¬ ∀ (j : Json) (fn : Str) (m : List (PyModule × List DirectImport)),
        parse_json_to_map j fn = .ok m →
        ∀ e ∈ m, ∀ d ∈ e.2, 1 ≤ d.line_number := by
  intro h
  have hinst := h
    (.obj [(strL "m", .arr [.arr [.str (strL "x"), .num 0, .str (strL "import x")]])])
    (strL "cache.json")
    [(PyModule.mk (strL "m"),
      [DirectImport.mk (strL "m") (strL "x") 0 (strL "import x")])]
    rfl
    (PyModule.mk (strL "m"),
      [DirectImport.mk (strL "m") (strL "x") 0 (strL "import x")])
    (by simp)
    (DirectImport.mk (strL "m") (strL "x") 0 (strL "import x"))
    (by simp)
  exact absurd hinst (by decide)

/-- Claim C8 (amended): cache read copies line numbers verbatim from the
document and enforces only that they are non-negative integers (usize), so a
stored line number 0 is accepted; every reconstructed DirectImport's fields
are exactly a triple stored in the document under its module key. -/
theorem c8_line_numbers_come_from_document (j : Json) (fn : Str)
    (m : List (PyModule × List DirectImport))
    (hok : parse_json_to_map j fn = .ok m) :
    ∀ e ∈ m, ∀ d ∈ e.2, ∃ raw, decodeRawMap j = some raw ∧
      ∃ en ∈ raw, en.1 = e.1.name ∧
        (d.imported, d.line_number, d.line_contents) ∈ en.2 := by
  unfold parse_json_to_map at hok
  cases hd : decodeRawMap j with
  | none => rw [hd] at hok; exact absurd hok (by simp)
  | some raw =>
    rw [hd] at hok
    simp only [Except.ok.injEq] at hok
    intro e he d hdmem
    refine ⟨raw, rfl, ?_⟩
    rw [← hok] at he
    obtain ⟨en, hen, hfe⟩ := List.mem_map.mp he
    refine ⟨en, hen, ?_, ?_⟩
    · rw [← hfe]
    · rw [← hfe] at hdmem
      simp only at hdmem
      obtain ⟨t, ht, hdt⟩ := List.mem_map.mp hdmem
      rw [← hdt]
      exact ht

/-- Witness for the amended claim C8: a document storing line number 0 is
accepted and the reconstructed import's triple is the stored one. -/
theorem c8_witness :
    ∃ raw, decodeRawMap
        (.obj [(strL "m", .arr [.arr [.str (strL "x"), .num 0, .str (strL "import x")]])]) =
        some raw ∧
      ∃ en ∈ raw, en.1 = (PyModule.mk (strL "m")).name ∧
        ((strL "x"), 0, (strL "import x")) ∈ en.2 :=
  c8_line_numbers_come_from_document
    (.obj [(strL "m", .arr [.arr [.str (strL "x"), .num 0, .str (strL "import x")]])])
    (strL "cache.json")
    [(PyModule.mk (strL "m"),
      [DirectImport.mk (strL "m") (strL "x") 0 (strL "import x")])]
    rfl
    (PyModule.mk (strL "m"),
      [DirectImport.mk (strL "m") (strL "x") 0 (strL "import x")])
    (by simp)
    (DirectImport.mk (strL "m") (strL "x") 0 (strL "import x"))
    (by simp)

/-- Python-level errors raised by the file-system trait (`PyResult`):
`FakeBasicFileSystem::read` raises `FileNotFoundError` for a missing key. -/
inductive PyErr : Type
  | FileNotFoundError : PyErr
deriving DecidableEq, Repr

/-- Association-list lookup (`HashMap::get`). -/
def alLookup {α β : Type} [DecidableEq α] : List (α × β) → α → Option β
  | [], _ => none
  | e :: es, k => if e.1 = k then some e.2 else alLookup es k

/-- Association-list insert (`HashMap::insert`): replaces any existing entry for
the key.  HashMap iteration order is unspecified, so the embedding puts the new
entry in front; maps are only ever observed through `alLookup`. -/
def alInsert {α β : Type} [DecidableEq α] (m : List (α × β)) (k : α) (v : β) :
    List (α × β) :=
  (k, v) :: m.filter (fun e => decide (e.1 ≠ k))

theorem alLookup_filter_ne {α β : Type} [DecidableEq α]
    (k p : α) (hpk : p ≠ k) (l : List (α × β)) :
    alLookup (l.filter (fun e => decide (e.1 ≠ k))) p = alLookup l p := by
  induction l with
  | nil => rfl
  | cons e es ih =>
    by_cases hek : e.1 = k
    · have h1 : decide (e.1 ≠ k) = false := by simp [hek]
      simp only [List.filter_cons, h1, Bool.false_eq_true, if_false]
      rw [ih]
      have hep : ¬ e.1 = p := by rw [hek]; exact fun h => hpk h.symm
      simp [alLookup, hep]
    · have h1 : decide (e.1 ≠ k) = true := by simp [hek]
      simp only [List.filter_cons, h1, if_true]
      by_cases hep : e.1 = p
      · simp [alLookup, hep]
      · simp only [alLookup, if_neg hep]
        exact ih

theorem alLookup_alInsert {α β : Type} [DecidableEq α]
    (m : List (α × β)) (k p : α) (v : β) :
    alLookup (alInsert m k v) p = if p = k then some v else alLookup m p := by
  by_cases hpk : p = k
  · subst hpk
    simp [alLookup, alInsert]
  · have hkp : ¬ k = p := fun h => hpk h.symm
    simp only [alInsert, alLookup, if_neg hkp, if_neg hpk]
    exact alLookup_filter_ne k p hpk m

/-- Strip all trailing occurrences of a character
(Rust `str::trim_end_matches`). -/
def trimEndMatches (ch : Char) (s : Str) : Str :=
  (s.reverse.dropWhile (fun c => c = ch)).reverse

/-- Rust `str::trim_end` (trailing whitespace). -/
def trimEndWs (s : Str) : Str :=
  (s.reverse.dropWhile Char.isWhitespace).reverse

/-- Rust `str::trim_start`. -/
def trimStartWs (s : Str) : Str := s.dropWhile Char.isWhitespace

/-- Rust `str::trim`. -/
def trimWs (s : Str) : Str := trimStartWs (trimEndWs s)

/-- `s.ends_with('/')`. -/
def endsWithSlash (s : Str) : Bool := s.getLast? = some '/'

/-- Rust `str::replace("\r\n", "\n")` (left-to-right, non-overlapping). -/
def normalizeNewlines : Str → Str
  | [] => []
  | '\r' :: '\n' :: rest => '\n' :: normalizeNewlines rest
  | c :: rest => c :: normalizeNewlines rest

/-- Rust `str::rsplit_once(ch)`: the parts before and after the last
occurrence of `ch`. -/
def rsplitOnceChar (ch : Char) : Str → Option (Str × Str)
  | [] => none
  | c :: cs =>
    match rsplitOnceChar ch cs with
    | some r => some (c :: r.1, r.2)
    | none => if c = ch then some ([], cs) else none

/-- `filesystem::FakeBasicFileSystem`: an in-memory mapping from path to
contents. -/
structure FakeBasicFileSystem where
  contents : List (Str × Str)
deriving DecidableEq, Repr

/-- `FakeBasicFileSystem::exists`: true iff the exact key is present
(`exists` is a Lean keyword, hence the trailing underscore). -/
def FakeBasicFileSystem.exists_ (fs : FakeBasicFileSystem) (file_name : Str) : Bool :=
  (alLookup fs.contents file_name).isSome

/-- `FakeBasicFileSystem::read`: the stored contents, or `FileNotFoundError`. -/
def FakeBasicFileSystem.read (fs : FakeBasicFileSystem) (file_name : Str) :
    Except PyErr Str :=
  match alLookup fs.contents file_name with
  | some c => .ok c
  | none => .error .FileNotFoundError

/-- `FakeBasicFileSystem::join`: strip a trailing separator from each component
and join with "/". -/
def FakeBasicFileSystem.join (components : List Str) : Str :=
  joinSep '/' (components.map (trimEndMatches '/'))

/-- `FakeBasicFileSystem::split`: a path with a trailing separator splits into
(path without the final separator, ""); otherwise into (everything before the
last separator, everything after it), with an empty head when there is no
separator.  (`Path` normalisation of duplicate separators or `..` is not
modelled; the scanner only splits paths built by `join` from clean
components.) -/
def FakeBasicFileSystem.split (file_name : Str) : Str × Str :=
  if endsWithSlash file_name then (file_name.dropLast, [])
  else
    match rsplitOnceChar '/' file_name with
    | some r => (r.1, r.2)
    | none => ([], file_name)

/-- State of `parse_indented_file_system_string`'s loop.  `dir_paths` is
instrumentation added by the embedding (not present in the Rust): it records
the full path of every processed line with a trailing `/`, i.e. the paths the
description marks as directories, and does not influence the other fields. -/
structure FSParseState where
  file_paths_map : List (Str × Str)
  path_stack : List Str
  first_line : Bool
  dir_paths : List Str
deriving DecidableEq, Repr

/-- One iteration of the line loop of `parse_indented_file_system_string`.
`absRoot` is the precomputed `lines[0].trim().starts_with('/')`. -/
def processLine (absRoot : Bool) (st : FSParseState) (line_raw : Str) :
    FSParseState :=
  let line := trimEndWs line_raw
  if line = [] then st
  else
    let current_indent := (line.takeWhile Char.isWhitespace).length
    let trimmed_line := line.dropWhile Char.isWhitespace
    let current_depth := current_indent / 4
    let stack1 :=
      if st.first_line then st.path_stack ++ [trimEndMatches '/' trimmed_line]
      else
        let popped := st.path_stack.take current_depth
        let comp := trimEndMatches '/' trimmed_line
        if comp ≠ [] then popped ++ [comp] else popped
    let full_path :=
      if stack1 ≠ [] then
        let joined := joinSep '/' stack1
        if absRoot ∧ ¬ (joined.head? = some '/') then '/' :: joined else joined
      else []
    if endsWithSlash trimmed_line then
      { file_paths_map := st.file_paths_map, path_stack := stack1,
        first_line := false, dir_paths := st.dir_paths ++ [full_path] }
    else
      { file_paths_map := alInsert st.file_paths_map full_path [],
        path_stack := if stack1 ≠ [] then stack1.dropLast else stack1,
        first_line := false, dir_paths := st.dir_paths }

/-- The lines of the description (`replace("\r\n", "\n")` then split on
newlines). -/
def parseFSLines (s : Str) : List Str := splitOnChar '\n' (normalizeNewlines s)

/-- The state after the line loop of `parse_indented_file_system_string`. -/
def parseFSState (s : Str) : FSParseState :=
  let lines := parseFSLines s
  let absRoot := (trimWs (lines.headD [])).head? = some '/'
  lines.foldl (processLine absRoot) ⟨[], [], true, []⟩

/-- The final edge case of `parse_indented_file_system_string`: when the stack
is nonempty, its last component has no trailing `/` (always true since
components are stored with trailing separators stripped) and the joined stack
path is not yet a key, that path is inserted as one more (empty) file. -/
def finalFlushKey (st : FSParseState) : Option Str :=
  if st.path_stack ≠ [] ∧
      ¬ (endsWithSlash ((st.path_stack.getLast?).getD []) = true) ∧
      alLookup st.file_paths_map (joinSep '/' st.path_stack) = none
  then some (joinSep '/' st.path_stack) else none

/-- `filesystem::parse_indented_file_system_string`. -/
def parse_indented_file_system_string (s : Str) : List (Str × Str) :=
  match finalFlushKey (parseFSState s) with
  | some k => alInsert (parseFSState s).file_paths_map k []
  | none => (parseFSState s).file_paths_map

/-- Claim C10, as stated, is false: the final edge case of
`parse_indented_file_system_string` inserts the joined remaining path stack as
a key whenever it is nonempty and absent (its guard on a trailing `/` is
vacuous because components are stored with separators stripped), so for the
description "mydir/" the directory path `mydir` is a key and `exists` returns
true for it. -/
theorem c10_counterexample :
    ¬ ∀ (desc p : Str), p ∈ (parseFSState desc).dir_paths →
        (FakeBasicFileSystem.mk (parse_indented_file_system_string desc)).exists_ p
            = false ∧
        (FakeBasicFileSystem.mk (parse_indented_file_system_string desc)).read p =
          .error .FileNotFoundError := by
  intro h
  have hinst := (h (strL "mydir/") (strL "mydir") (by decide)).1
  exact absurd hinst (by decide)

/-- Claim C10 (amended): during line processing only lines without a trailing
`/` are inserted as keys, but after the last line the joined remaining path
stack is inserted as one more key when nonempty and absent; hence a
directory-marked path does not exist and fails to read only if it is neither
some file line's full path nor that final flushed stack path. -/
theorem c10_unflushed_directories_do_not_exist (desc p : Str)
    (hdir : p ∈ (parseFSState desc).dir_paths)
    (hnof : alLookup (parseFSState desc).file_paths_map p = none)
    (hnoflush : finalFlushKey (parseFSState desc) ≠ some p) :
    (FakeBasicFileSystem.mk (parse_indented_file_system_string desc)).exists_ p
        = false ∧
    (FakeBasicFileSystem.mk (parse_indented_file_system_string desc)).read p =
      .error .FileNotFoundError := by
  have hlook : alLookup (parse_indented_file_system_string desc) p = none := by
    unfold parse_indented_file_system_string
    cases hf : finalFlushKey (parseFSState desc) with
    | none => exact hnof
    | some k =>
      rw [alLookup_alInsert]
      have hpk : p ≠ k := fun h => hnoflush (by rw [h]; exact hf)
      rw [if_neg hpk]
      exact hnof
  constructor
  · unfold FakeBasicFileSystem.exists_
    simp [hlook]
  · unfold FakeBasicFileSystem.read
    rw [hlook]

/-- Witness for the amended claim C10: in "root/ / sub/ / a.py" (newline
separated), the directory `root` is neither a file line's path nor the flushed
stack path `root/sub`, so it does not exist; `root/sub` itself, however, is
flushed in as a key. -/
theorem c10_witness :
    (strL "root") ∈ (parseFSState (strL "root/\n    sub/\n        a.py")).dir_paths ∧
    (FakeBasicFileSystem.mk (parse_indented_file_system_string
        (strL "root/\n    sub/\n        a.py"))).exists_ (strL "root") = false ∧
    (FakeBasicFileSystem.mk (parse_indented_file_system_string
        (strL "root/\n    sub/\n        a.py"))).read (strL "root") =
      .error .FileNotFoundError :=
  ⟨by decide,
   c10_unflushed_directories_do_not_exist _ _ (by decide) (by decide) (by decide)⟩

/-- The parser collaborator's output (spec section 6): a parsed import with a
possibly relative name, its line number, verbatim line contents and the
TYPE_CHECKING flag. -/
structure ParsedImport where
  name : Str
  line_number : Nat
  line_contents : Str
  typechecking_only : Bool
deriving DecidableEq, Repr

/-- `io::Error` as constructed by `_determine_module_filename`
(`ErrorKind::NotFound`). -/
inductive IoError : Type
  | NotFound : IoError
deriving DecidableEq, Repr

/-- `import_scanning::_lookup_found_package_for_module`: the first found
package listing a module file for the module; the Rust code panics when there
is none, so the caller treats `none` as a panic. -/
def _lookup_found_package_for_module (module : PyModule)
    (found_packages : List FoundPackage) : Option FoundPackage :=
  found_packages.find? (fun p => p.module_files.any (fun mf => decide (mf.module = module)))

/-- `import_scanning::get_modules_from_found_packages` (a `HashSet` of all
internal modules, embedded as a list and used only through membership). -/
def get_modules_from_found_packages (found_packages : List FoundPackage) :
    List PyModule :=
  found_packages.foldr (fun p acc => p.module_files.map (fun mf => mf.module) ++ acc) []

/-- `import_scanning::_determine_module_filename`: try `{root}.py` then
`{root}/__init__.py` through the file system's `join`/`exists`; `NotFound`
when neither exists. -/
def _determine_module_filename (module : PyModule) (found_package : FoundPackage)
    (fs : FakeBasicFileSystem) : Except IoError Str :=
  let top_level_components := splitOnChar '.' found_package.name
  let module_components := splitOnChar '.' module.name
  let leaf_components := module_components.drop top_level_components.length
  let filename_root := FakeBasicFileSystem.join (found_package.directory :: leaf_components)
  let normal_module_path := filename_root ++ strL ".py"
  let init_module_path := FakeBasicFileSystem.join [filename_root, strL "__init__.py"]
  if fs.exists_ normal_module_path then .ok normal_module_path
  else if fs.exists_ init_module_path then .ok init_module_path
  else .error .NotFound

/-- `import_scanning::_module_is_package`: the filename's tail is
`__init__.py`. -/
def _module_is_package (module_filename : Str) (fs : FakeBasicFileSystem) : Bool :=
  decide ((FakeBasicFileSystem.split module_filename).2 = strL "__init__.py")

/-- `import_scanning::_get_internal_module`: the absolute name itself if it is
an internal module, else its parent (the part before the last dot) if that is
internal, else none (external). -/
def _get_internal_module (imported_object_name : Str)
    (all_modules : List PyModule) : Option PyModule :=
  let candidate_module := PyModule.mk imported_object_name
  if all_modules.any (fun m => decide (m = candidate_module)) then some candidate_module
  else
    match rsplitOnceChar '.' imported_object_name with
    | some r =>
      if all_modules.any (fun m => decide (m = PyModule.mk r.1)) then
        some (PyModule.mk r.1)
      else none
    | none => none

/-- `HashSet::insert` on the imports set, embedded as append-if-absent. -/
def insertSet {α : Type} [DecidableEq α] (l : List α) (x : α) : List α :=
  if x ∈ l then l else l ++ [x]

/-- The `for imported_object in imported_objects` loop of
`scan_for_imports_no_py_single_module`: skip TYPE_CHECKING imports when asked,
resolve the absolute name, emit an internal DirectImport or (when enabled) a
distilled external one; a panic in distillation aborts the scan.  (The Rust
binds the resolved absolute name to a local; it is inlined at its two use
sites here.) -/
def processImports (module : PyModule) (found_packages : List FoundPackage)
    (all_modules : List PyModule)
    (include_external_packages exclude_type_checking_imports is_package : Bool) :
    List ParsedImport → List DirectImport → Res (List DirectImport)
  | [], imports => .value imports
  | imported_object :: rest, imports =>
    if exclude_type_checking_imports && imported_object.typechecking_only then
      processImports module found_packages all_modules include_external_packages
        exclude_type_checking_imports is_package rest imports
    else
      match _get_internal_module
          (_get_absolute_imported_object_name module is_package imported_object.name)
          all_modules with
      | some imported_module =>
        processImports module found_packages all_modules include_external_packages
          exclude_type_checking_imports is_package rest
          (insertSet imports (DirectImport.mk module.name imported_module.name
            imported_object.line_number imported_object.line_contents))
      | none =>
        if include_external_packages then
          match _distill_external_module
              (_get_absolute_imported_object_name module is_package imported_object.name)
              found_packages with
          | .panicked => .panicked
          | .value none =>
            processImports module found_packages all_modules include_external_packages
              exclude_type_checking_imports is_package rest imports
          | .value (some imported) =>
            processImports module found_packages all_modules include_external_packages
              exclude_type_checking_imports is_package rest
              (insertSet imports (DirectImport.mk module.name imported
                imported_object.line_number imported_object.line_contents))
        else
          processImports module found_packages all_modules include_external_packages
            exclude_type_checking_imports is_package rest imports

/-- `import_scanning::scan_for_imports_no_py_single_module`.  The parser
collaborator (`import_parsing::parse_imports_from_code`, not part of the core)
is a parameter taking the module contents and filename.  The Rust code calls
`.unwrap()` on the results of `_determine_module_filename` and
`file_system.read`, so their error cases are panics, not surfaced errors;
the parser's error propagates through `?`. -/
def scan_for_imports_no_py_single_module
    (parse_imports_from_code : Str → Str → Except GrimpErr (List ParsedImport))
    (module : PyModule) (fs : FakeBasicFileSystem)
    (found_packages : List FoundPackage) (all_modules : List PyModule)
    (include_external_packages exclude_type_checking_imports : Bool) :
    Res (Except GrimpErr (List DirectImport)) :=
  match _lookup_found_package_for_module module found_packages with
  | none => .panicked
  | some found_package_for_module =>
    match _determine_module_filename module found_package_for_module fs with
    | .error _ => .panicked
    | .ok module_filename =>
      match fs.read module_filename with
      | .error _ => .panicked
      | .ok module_contents =>
        match parse_imports_from_code module_contents module_filename with
        | .error e => .value (.error e)
        | .ok imported_objects =>
          match processImports module found_packages all_modules
              include_external_packages exclude_type_checking_imports
              (_module_is_package module_filename fs) imported_objects [] with
          | .panicked => .panicked
          | .value imports => .value (.ok imports)

/-- The `for module in modules` loop of
`import_scanning::scan_for_imports_no_py`, accumulating the map. -/
def scanModules
    (parse_imports_from_code : Str → Str → Except GrimpErr (List ParsedImport))
    (fs : FakeBasicFileSystem) (found_packages : List FoundPackage)
    (include_external_packages exclude_type_checking_imports : Bool) :
    List PyModule → List (PyModule × List DirectImport) →
      Res (Except GrimpErr (List (PyModule × List DirectImport)))
  | [], acc => .value (.ok acc)
  | module :: rest, acc =>
    match scan_for_imports_no_py_single_module parse_imports_from_code module fs
        found_packages (get_modules_from_found_packages found_packages)
        include_external_packages exclude_type_checking_imports with
    | .panicked => .panicked
    | .value (.error e) => .value (.error e)
    | .value (.ok imports_for_module) =>
      scanModules parse_imports_from_code fs found_packages
        include_external_packages exclude_type_checking_imports rest
        (alInsert acc module imports_for_module)

/-- `import_scanning::scan_for_imports_no_py` (parameter order as in the Rust
signature, with the parser collaborator first). -/
def scan_for_imports_no_py
    (parse_imports_from_code : Str → Str → Except GrimpErr (List ParsedImport))
    (fs : FakeBasicFileSystem) (found_packages : List FoundPackage)
    (include_external_packages : Bool) (modules : List PyModule)
    (exclude_type_checking_imports : Bool) :
    Res (Except GrimpErr (List (PyModule × List DirectImport))) :=
  scanModules parse_imports_from_code fs found_packages include_external_packages
    exclude_type_checking_imports modules []

/-- Claim C5 is contradicted by the code: when neither `{root}.py` nor
`{root}/__init__.py` exists, `_determine_module_filename` does return the
typed not-found error, but `scan_for_imports_no_py_single_module` calls
`.unwrap()` on that result, so the scan panics (and the surrounding
`scan_for_imports_no_py` run panics with it) instead of surfacing a typed
module-file-not-found error. -/
theorem c5_missing_module_file_panics :
    _determine_module_filename (PyModule.mk (strL "pkg.sub"))
        (FoundPackage.mk (strL "pkg") (strL "pkg")
          [ModuleFile.mk (PyModule.mk (strL "pkg.sub")) (strL "sub.py")])
        (FakeBasicFileSystem.mk []) = .error .NotFound ∧
    scan_for_imports_no_py_single_module (fun _ _ => .ok [])
        (PyModule.mk (strL "pkg.sub")) (FakeBasicFileSystem.mk [])
        [FoundPackage.mk (strL "pkg") (strL "pkg")
          [ModuleFile.mk (PyModule.mk (strL "pkg.sub")) (strL "sub.py")]]
        [PyModule.mk (strL "pkg.sub")] true false = .panicked ∧
    scan_for_imports_no_py (fun _ _ => .ok [])
        (FakeBasicFileSystem.mk [])
        [FoundPackage.mk (strL "pkg") (strL "pkg")
          [ModuleFile.mk (PyModule.mk (strL "pkg.sub")) (strL "sub.py")]]
        true [PyModule.mk (strL "pkg.sub")] false = .panicked :=
  ⟨rfl, rfl, rfl⟩

theorem mem_insertSet {α : Type} [DecidableEq α] (l : List α) (y x : α)
    (h : x ∈ insertSet l y) : x ∈ l ∨ x = y := by
  unfold insertSet at h
  by_cases hy : y ∈ l
  · rw [if_pos hy] at h
    exact Or.inl h
  · rw [if_neg hy] at h
    rcases List.mem_append.mp h with h1 | h1
    · exact Or.inl h1
    · right
      simpa using h1

theorem mem_alInsert {α β : Type} [DecidableEq α]
    (m : List (α × β)) (k : α) (v : β) (e : α × β)
    (h : e ∈ alInsert m k v) : e = (k, v) ∨ e ∈ m := by
  unfold alInsert at h
  rcases List.mem_cons.mp h with h1 | h1
  · exact Or.inl h1
  · exact Or.inr (List.mem_of_mem_filter h1)

theorem processImports_importer (module : PyModule)
    (found_packages : List FoundPackage) (all_modules : List PyModule)
    (ie etc ip : Bool) :
    ∀ (l : List ParsedImport) (acc : List DirectImport),
      (∀ d ∈ acc, d.importer = module.name) →
      ∀ (res : List DirectImport),
        processImports module found_packages all_modules ie etc ip l acc =
          .value res →
        ∀ d ∈ res, d.importer = module.name := by
  intro l
  induction l with
  | nil =>
    intro acc hacc res h
    unfold processImports at h
    injection h with h1
    subst h1
    exact hacc
  | cons x xs ih =>
    intro acc hacc res h
    have hins : ∀ (di : DirectImport), di.importer = module.name →
        ∀ d ∈ insertSet acc di, d.importer = module.name := by
      intro di hdi d hd
      rcases mem_insertSet acc di d hd with h1 | h1
      · exact hacc d h1
      · rw [h1]
        exact hdi
    unfold processImports at h
    split at h
    · exact ih acc hacc res h
    · split at h
      · exact ih _ (hins _ rfl) res h
      · split at h
        · split at h
          · exact Res.noConfusion h
          · exact ih acc hacc res h
          · exact ih _ (hins _ rfl) res h
        · exact ih acc hacc res h

theorem scanSingle_importer
    (pif : Str → Str → Except GrimpErr (List ParsedImport))
    (module : PyModule) (fs : FakeBasicFileSystem)
    (found_packages : List FoundPackage) (all_modules : List PyModule)
    (ie etc : Bool) (res : List DirectImport)
    (h : scan_for_imports_no_py_single_module pif module fs found_packages
      all_modules ie etc = .value (.ok res)) :
    ∀ d ∈ res, d.importer = module.name := by
  unfold scan_for_imports_no_py_single_module at h
  split at h
  · exact Res.noConfusion h
  · split at h
    · exact Res.noConfusion h
    · split at h
      · exact Res.noConfusion h
      · split at h
        · injection h with h1
          exact Except.noConfusion h1
        · split at h
          · exact Res.noConfusion h
          · rename_i imports hproc
            injection h with h1
            injection h1 with h2
            subst h2
            exact processImports_importer module found_packages all_modules
              ie etc _ _ [] (by simp) _ hproc

theorem scanModules_importer
    (pif : Str → Str → Except GrimpErr (List ParsedImport))
    (fs : FakeBasicFileSystem) (found_packages : List FoundPackage)
    (ie etc : Bool) :
    ∀ (modules : List PyModule) (acc : List (PyModule × List DirectImport)),
      (∀ e ∈ acc, ∀ d ∈ e.2, d.importer = e.1.name) →
      ∀ (out : List (PyModule × List DirectImport)),
        scanModules pif fs found_packages ie etc modules acc = .value (.ok out) →
        ∀ e ∈ out, ∀ d ∈ e.2, d.importer = e.1.name := by
  intro modules
  induction modules with
  | nil =>
    intro acc hacc out h
    unfold scanModules at h
    injection h with h1
    injection h1 with h2
    subst h2
    exact hacc
  | cons m ms ih =>
    intro acc hacc out h
    unfold scanModules at h
    split at h
    · exact Res.noConfusion h
    · injection h with h1
      exact Except.noConfusion h1
    · rename_i imports hscan
      refine ih _ ?_ out h
      intro e he d hd
      rcases mem_alInsert acc m imports e he with h1 | h1
      · subst h1
        exact scanSingle_importer pif m fs found_packages
          (get_modules_from_found_packages found_packages) ie etc imports hscan d hd
      · exact hacc e h1 d hd

/-- Claim C7: the importer-field invariant.  In every mapping reconstructed by
cache read, and in every mapping produced by the scanner, the importer field of
every DirectImport keyed by a module equals that module's name (cache read sets
it to the outer document key; the scanner sets it to the scanned module's
name). -/
theorem c7_importer_field_invariant :
    (∀ (j : Json) (fn : Str) (m : List (PyModule × List DirectImport)),
      parse_json_to_map j fn = .ok m →
      ∀ e ∈ m, ∀ d ∈ e.2, d.importer = e.1.name) ∧
    (∀ (pif : Str → Str → Except GrimpErr (List ParsedImport))
        (fs : FakeBasicFileSystem) (found_packages : List FoundPackage)
        (ie : Bool) (modules : List PyModule) (etc : Bool)
        (out : List (PyModule × List DirectImport)),
      scan_for_imports_no_py pif fs found_packages ie modules etc =
        .value (.ok out) →
      ∀ e ∈ out, ∀ d ∈ e.2, d.importer = e.1.name) := by
  constructor
  · intro j fn m hok e he d hd
    unfold parse_json_to_map at hok
    cases hdm : decodeRawMap j with
    | none =>
      rw [hdm] at hok
      exact Except.noConfusion hok
    | some raw =>
      rw [hdm] at hok
      injection hok with h1
      rw [← h1] at he
      obtain ⟨en, hen, hfe⟩ := List.mem_map.mp he
      rw [← hfe] at hd ⊢
      simp only at hd
      obtain ⟨t, ht, hdt⟩ := List.mem_map.mp hd
      rw [← hdt]
  · intro pif fs found_packages ie modules etc out h
    exact scanModules_importer pif fs found_packages ie etc modules []
      (by simp) out h

/-- Witness for claim C7: concrete cache-read and scanner runs both restore
the importer field. -/
theorem c7_witness :
    (DirectImport.mk (strL "m") (strL "x") 2 (strL "import x")).importer =
      (PyModule.mk (strL "m")).name ∧
    (DirectImport.mk (strL "pkg.sub") (strL "os") 1 (strL "import os")).importer =
      (PyModule.mk (strL "pkg.sub")).name :=
  ⟨c7_importer_field_invariant.1
      (.obj [(strL "m", .arr [.arr [.str (strL "x"), .num 2, .str (strL "import x")]])])
      (strL "cache.json")
      [(PyModule.mk (strL "m"),
        [DirectImport.mk (strL "m") (strL "x") 2 (strL "import x")])]
      rfl
      (PyModule.mk (strL "m"),
        [DirectImport.mk (strL "m") (strL "x") 2 (strL "import x")])
      (by simp)
      (DirectImport.mk (strL "m") (strL "x") 2 (strL "import x"))
      (by simp),
   c7_importer_field_invariant.2
      (fun _ _ => .ok [ParsedImport.mk (strL "os") 1 (strL "import os") false])
      (FakeBasicFileSystem.mk [(strL "pkg/sub.py", [])])
      [FoundPackage.mk (strL "pkg") (strL "pkg")
        [ModuleFile.mk (PyModule.mk (strL "pkg.sub")) (strL "sub.py")]]
      true [PyModule.mk (strL "pkg.sub")] false
      [(PyModule.mk (strL "pkg.sub"),
        [DirectImport.mk (strL "pkg.sub") (strL "os") 1 (strL "import os")])]
      rfl
      (PyModule.mk (strL "pkg.sub"),
        [DirectImport.mk (strL "pkg.sub") (strL "os") 1 (strL "import os")])
      (by simp)
      (DirectImport.mk (strL "pkg.sub") (strL "os") 1 (strL "import os"))
      (by simp)⟩

/-- A directed import graph at the token level (spec sections 4.E-4.F):
module tokens are dense integers and `edges` is the forward `imports`
adjacency, flattened to a list of (importer, imported) pairs. -/
structure GraphM where
  edges : List (Nat × Nat)
deriving DecidableEq, Repr

/-- Modelled from the spec: the edge admissibility of section 4.F's shortest
chain — an edge (u,v) may be traversed when it is in the graph, neither u nor v
is an excluded module, and v is not in `excluded_imports[u]` (the
token-to-token-set map is flattened to a list of pairs). -/
def allowedEdge (g : GraphM) (exM : List Nat) (exI : List (Nat × Nat))
    (e : Nat × Nat) : Bool :=
  decide (e ∈ g.edges) && !decide (e.1 ∈ exM) && !decide (e.2 ∈ exM) &&
    !decide (e ∈ exI)

/-- The number of graph edges still traversable under the given exclusions. -/
def allowedCount (g : GraphM) (exM : List Nat) (exI : List (Nat × Nat)) : Nat :=
  (g.edges.filter (fun e => allowedEdge g exM exI e)).length

/-- Modelled from the spec: all walks of exactly k admissible edges starting
at x. -/
def walksFrom (g : GraphM) (exM : List Nat) (exI : List (Nat × Nat)) (x : Nat) :
    Nat → List (List Nat)
  | 0 => [[x]]
  | k + 1 =>
    (g.edges.filter (fun e => decide (e.1 = x) && allowedEdge g exM exI e)).foldr
      (fun e acc => (walksFrom g exM exI e.2 k).map (fun w => x :: w) ++ acc) []

/-- Modelled from the spec: the candidate chains of exactly k edges — the
admissible walks from a from-module whose last token is a to-module. -/
def chainsAtLen (g : GraphM) (from_modules to_modules : List Nat)
    (exM : List Nat) (exI : List (Nat × Nat)) (k : Nat) : List (List Nat) :=
  (from_modules.foldr (fun x acc => walksFrom g exM exI x k ++ acc) []).filter
    (fun w => decide (w.getLastD 0 ∈ to_modules))

/-- Modelled from the spec: search the edge counts k, k+1, … (with fuel r) and
return the first candidate chain found — the deterministic shortest-first
search behind section 4.F. -/
def findPathAux (g : GraphM) (from_modules to_modules : List Nat)
    (exM : List Nat) (exI : List (Nat × Nat)) : Nat → Nat → Option (List Nat)
  | _, 0 => none
  | k, r + 1 =>
    match (chainsAtLen g from_modules to_modules exM exI k).head? with
    | some w => some w
    | none => findPathAux g from_modules to_modules exM exI (k + 1) r

/-- Modelled from the spec: `pathfinding::find_shortest_path`
(graph/pathfinding.rs is not among the sources under verification).  Spec
section 4.F: the shortest chain (minimum edge count) from any from-module to
any to-module through forward imports, skipping excluded modules and excluded
imports; `none` when no such chain exists; among equally short chains the
choice is a fixed deterministic one.  Per the glossary a chain
m0, m1, …, mn has an import edge between each consecutive pair, so a chain has
at least one edge; a shortest chain is simple, so edge counts up to
2 * |edges| + 1 suffice. -/
def find_shortest_path (g : GraphM) (from_modules to_modules : List Nat)
    (excluded_modules : List Nat) (excluded_imports : List (Nat × Nat)) :
    Option (List Nat) :=
  findPathAux g from_modules to_modules excluded_modules excluded_imports 1
    (2 * g.edges.length + 1)

/-- The loop of `import_chain_queries::_find_shortest_chains`, with fuel:
find a shortest chain, add each of its adjacent pairs to `excluded_imports`,
append it to `chains`, repeat until no chain is found; `none` means the fuel
ran out (the Rust loop is unbounded). -/
def peelAux (g : GraphM) (from_modules to_modules excluded_modules : List Nat) :
    Nat → List (Nat × Nat) → List (List Nat) → Option (List (List Nat))
  | 0, _, _ => none
  | f + 1, excluded_imports, chains =>
    match find_shortest_path g from_modules to_modules excluded_modules
        excluded_imports with
    | none => some chains
    | some chain =>
      peelAux g from_modules to_modules excluded_modules f
        (excluded_imports ++ chain.zip chain.tail) (chains ++ [chain])

/-- `import_chain_queries::_find_shortest_chains`: the iterative greedy peel,
run with enough fuel for every possible iteration (one more than the number of
initially traversable edges). -/
def _find_shortest_chains (g : GraphM)
    (from_modules to_modules excluded_modules : List Nat) :
    Option (List (List Nat)) :=
  peelAux g from_modules to_modules excluded_modules
    (allowedCount g excluded_modules [] + 1) [] []

theorem mem_foldr_append {α β : Type} (l : List α) (f : α → List β) (w : β) :
    w ∈ l.foldr (fun e acc => f e ++ acc) [] ↔ ∃ e ∈ l, w ∈ f e := by
  induction l with
  | nil => simp
  | cons a as ih =>
    simp only [List.foldr_cons, List.mem_append, ih, List.mem_cons]
    constructor
    · rintro (h | ⟨e, he, hw⟩)
      · exact ⟨a, Or.inl rfl, h⟩
      · exact ⟨e, Or.inr he, hw⟩
    · rintro ⟨e, he | he, hw⟩
      · exact Or.inl (he ▸ hw)
      · exact Or.inr ⟨e, he, hw⟩

theorem walksFrom_sound (g : GraphM) (exM : List Nat) (exI : List (Nat × Nat)) :
    ∀ (k x : Nat) (w : List Nat), w ∈ walksFrom g exM exI x k →
      w.length = k + 1 ∧ w.head? = some x ∧
      ∀ e ∈ w.zip w.tail, allowedEdge g exM exI e = true := by
  intro k
  induction k with
  | zero =>
    intro x w hw
    simp only [walksFrom, List.mem_singleton] at hw
    subst hw
    refine ⟨rfl, rfl, ?_⟩
    intro e he
    simp [List.zip] at he
  | succ k ih =>
    intro x w hw
    unfold walksFrom at hw
    rw [mem_foldr_append] at hw
    obtain ⟨e, he, hwm⟩ := hw
    obtain ⟨w2, hw2, hcons⟩ := List.mem_map.mp hwm
    have hef := List.mem_filter.mp he
    have hex : e.1 = x ∧ allowedEdge g exM exI e = true := by
      have := hef.2
      simp only [Bool.and_eq_true, decide_eq_true_eq] at this
      exact this
    obtain ⟨hlen, hhead, hall⟩ := ih e.2 w2 hw2
    subst hcons
    refine ⟨by simp [hlen], rfl, ?_⟩
    cases w2 with
    | nil => simp at hlen
    | cons y rest =>
      have hy : y = e.2 := by
        simp only [List.head?] at hhead
        injection hhead
      intro p hp
      simp only [List.tail, List.zip_cons_cons, List.mem_cons] at hp
      rcases hp with hp | hp
      · subst hp
        rw [hy, ← hex.1]
        exact hex.2
      · exact hall p (by simpa [List.zip] using hp)

theorem findPathAux_sound (g : GraphM) (fm tm exM : List Nat)
    (exI : List (Nat × Nat)) :
    ∀ (r k : Nat), 1 ≤ k → ∀ w,
      findPathAux g fm tm exM exI k r = some w →
      w.zip w.tail ≠ [] ∧ ∀ e ∈ w.zip w.tail, allowedEdge g exM exI e = true := by
  intro r
  induction r with
  | zero => intro k hk w h; exact Option.noConfusion h
  | succ r ih =>
    intro k hk w h
    unfold findPathAux at h
    split at h
    · rename_i w0 hw0
      injection h with h1
      subst h1
      have hmem : w0 ∈ chainsAtLen g fm tm exM exI k := by
        cases hc : chainsAtLen g fm tm exM exI k with
        | nil => rw [hc] at hw0; exact Option.noConfusion hw0
        | cons a as =>
          rw [hc] at hw0
          simp only [List.head?] at hw0
          injection hw0 with h2
          rw [h2]
          exact List.mem_cons_self _ _
      have hwf := List.mem_filter.mp hmem
      obtain ⟨x, hx, hwx⟩ := (mem_foldr_append fm _ w0).mp hwf.1
      obtain ⟨hlen, hhead, hall⟩ := walksFrom_sound g exM exI k x w0 hwx
      refine ⟨?_, hall⟩
      intro hz
      have hzlen := congrArg List.length hz
      rw [List.length_zip, List.length_tail, hlen] at hzlen
      simp only [List.length_nil] at hzlen
      omega
    · exact ih (k + 1) (le_trans hk (Nat.le_succ k)) w h

theorem length_filter_le_mono {α : Type} (l : List α) (p q : α → Bool)
    (hpq : ∀ x, q x = true → p x = true) :
    (l.filter q).length ≤ (l.filter p).length := by
  induction l with
  | nil => simp
  | cons a as ih =>
    by_cases hq : q a = true
    · rw [List.filter_cons_of_pos hq, List.filter_cons_of_pos (hpq a hq)]
      simpa using ih
    · rw [List.filter_cons_of_neg (by simpa using hq)]
      by_cases hp : p a = true
      · rw [List.filter_cons_of_pos hp]
        exact le_trans ih (by simp)
      · rw [List.filter_cons_of_neg (by simpa using hp)]
        exact ih

theorem length_filter_lt_strict {α : Type} (l : List α) (p q : α → Bool)
    (hpq : ∀ x, q x = true → p x = true) (x : α) (hx : x ∈ l)
    (hpx : p x = true) (hqx : q x = false) :
    (l.filter q).length < (l.filter p).length := by
  induction l with
  | nil => cases hx
  | cons a as ih =>
    rcases List.mem_cons.mp hx with hax | hax
    · subst hax
      rw [List.filter_cons_of_pos hpx, List.filter_cons_of_neg (by simp [hqx])]
      exact Nat.lt_succ_of_le (length_filter_le_mono as p q hpq)
    · by_cases hq : q a = true
      · rw [List.filter_cons_of_pos hq, List.filter_cons_of_pos (hpq a hq)]
        simpa using ih hax
      · rw [List.filter_cons_of_neg (by simpa using hq)]
        by_cases hp : p a = true
        · rw [List.filter_cons_of_pos hp]
          exact Nat.lt_succ_of_lt (ih hax)
        · rw [List.filter_cons_of_neg (by simpa using hp)]
          exact ih hax

theorem allowedEdge_mono (g : GraphM) (exM : List Nat)
    (exI exI2 : List (Nat × Nat)) (hsub : ∀ e, e ∈ exI → e ∈ exI2)
    (e : Nat × Nat) (h : allowedEdge g exM exI2 e = true) :
    allowedEdge g exM exI e = true := by
  simp only [allowedEdge, Bool.and_eq_true, Bool.not_eq_true', decide_eq_true_eq,
    decide_eq_false_iff_not] at h ⊢
  exact ⟨h.1, fun hm => h.2 (hsub e hm)⟩

theorem allowedEdge_of_mem_exI (g : GraphM) (exM : List Nat)
    (exI : List (Nat × Nat)) (e : Nat × Nat) (hm : e ∈ exI) :
    allowedEdge g exM exI e = false := by
  simp [allowedEdge, hm]

theorem mem_edges_of_allowedEdge (g : GraphM) (exM : List Nat)
    (exI : List (Nat × Nat)) (e : Nat × Nat)
    (h : allowedEdge g exM exI e = true) : e ∈ g.edges := by
  simp only [allowedEdge, Bool.and_eq_true, decide_eq_true_eq] at h
  exact h.1.1.1

theorem allowedCount_lt (g : GraphM) (exM : List Nat) (exI : List (Nat × Nat))
    (chain : List Nat) (hne : chain.zip chain.tail ≠ [])
    (hall : ∀ e ∈ chain.zip chain.tail, allowedEdge g exM exI e = true) :
    allowedCount g exM (exI ++ chain.zip chain.tail) < allowedCount g exM exI := by
  obtain ⟨e0, he0⟩ := List.exists_mem_of_ne_nil _ hne
  exact length_filter_lt_strict g.edges
    (fun e => allowedEdge g exM exI e)
    (fun e => allowedEdge g exM (exI ++ chain.zip chain.tail) e)
    (fun e he => allowedEdge_mono g exM exI _ (fun x hx => List.mem_append_left _ hx) e he)
    e0
    (mem_edges_of_allowedEdge g exM exI e0 (hall e0 he0))
    (hall e0 he0)
    (allowedEdge_of_mem_exI g exM _ e0 (List.mem_append_right _ he0))

theorem peelAux_sound (g : GraphM) (fm tm exM : List Nat) :
    ∀ (f : Nat) (exI : List (Nat × Nat)) (acc : List (List Nat)),
      allowedCount g exM exI < f →
      ∃ out, peelAux g fm tm exM f exI acc = some (acc ++ out) ∧
        (∀ c ∈ out, ∀ e ∈ c.zip c.tail, e ∉ exI) ∧
        List.Pairwise (fun c1 c2 => ∀ e ∈ c2.zip c2.tail, e ∉ c1.zip c1.tail) out := by
  intro f
  induction f with
  | zero => intro exI acc hf; omega
  | succ f ih =>
    intro exI acc hf
    cases hfp : find_shortest_path g fm tm exM exI with
    | none =>
      refine ⟨[], ?_, by simp, by simp⟩
      unfold peelAux
      rw [hfp]
      simp
    | some chain =>
      obtain ⟨hne, hall⟩ := findPathAux_sound g fm tm exM exI
        (2 * g.edges.length + 1) 1 (by omega) chain hfp
      have hdec := allowedCount_lt g exM exI chain hne hall
      obtain ⟨out2, hpeel, hfresh, hpw⟩ :=
        ih (exI ++ chain.zip chain.tail) (acc ++ [chain]) (by omega)
      refine ⟨chain :: out2, ?_, ?_, ?_⟩
      · unfold peelAux
        rw [hfp]
        show peelAux g fm tm exM f (exI ++ chain.zip chain.tail) (acc ++ [chain]) =
          some (acc ++ chain :: out2)
        rw [hpeel]
        simp
      · intro c hc e he
        rcases List.mem_cons.mp hc with h1 | h1
        · subst h1
          intro hm
          have hcontra := allowedEdge_of_mem_exI g exM exI e hm
          rw [hall e he] at hcontra
          exact Bool.noConfusion hcontra
        · intro hm
          exact hfresh c h1 e he (List.mem_append_left _ hm)
      · exact List.Pairwise.cons
          (fun c2 hc2 e he2 hm => hfresh c2 hc2 e he2 (List.mem_append_right _ hm))
          hpw

/-- Claim C3: the iterative all-shortest-chains enumeration terminates on every
finite graph with a finite list of chains (the fueled embedding of the
unbounded Rust loop always succeeds with one more unit of fuel than there are
initially traversable edges, because every discovered chain has at least one
admissible edge and all of its adjacent pairs are added to excluded_imports
before the next search), and no returned chain traverses an edge already used
by an earlier returned chain. -/
theorem c3_find_shortest_chains_terminates (g : GraphM)
    (from_modules to_modules excluded_modules : List Nat) :
    ∃ chains,
      _find_shortest_chains g from_modules to_modules excluded_modules =
        some chains ∧
      List.Pairwise (fun c1 c2 => ∀ e ∈ c2.zip c2.tail, e ∉ c1.zip c1.tail)
        chains := by
  obtain ⟨out, hp, _, hpw⟩ := peelAux_sound g from_modules to_modules
    excluded_modules (allowedCount g excluded_modules [] + 1) [] [] (by omega)
  exact ⟨out, by simpa [_find_shortest_chains] using hp, hpw⟩
